import Mathlib

/-!
# Verification of the libosmium fixed-point coordinate codec

Shallow embedding of `include/osmium/osm/location.hpp` and
`include/osmium/util/misc.hpp`:

* `string_to_location_coordinate` — the hand-rolled decimal parser
  (location.hpp lines 70-196).  C strings are modelled as `List Char`
  (no NUL terminator; reading `'\0'` at the end corresponds to the
  empty list).  A thrown `invalid_location` is modelled as `none`;
  success returns the parsed 32-bit value together with the advanced
  cursor (the unconsumed suffix).  The C `int64_t` accumulator is
  modelled as `Nat`/`Int`: on every input reachable in the claims the
  C arithmetic does not overflow 64 bits, so the exact model agrees
  with the source.
* `append_location_coordinate_to_string` — the formatter
  (location.hpp lines 199-248).  The `int32_t` negation of a negative
  value (line 204) is modelled with two's-complement wrap (`wrap32`),
  so at -2147483648 the digit loop runs on a negative value with
  C truncating `%` and `/`, exactly as real implementations behave
  where the C standard leaves the overflow undefined.
* `Location` — the coordinate value type (location.hpp lines 266-489).
  The C++ `double` results of `lon()` are modelled exactly as `Rat`.
* `str_to_int` — misc.hpp lines 78-89; `strtoll` is external libc,
  modelled from the C99 specification of `strtoll`.
-/

/-- `detail::coordinate_precision` (location.hpp line 66). -/
def coordinate_precision : Nat := 10000000

/-- The C digit test `*str >= '0' && *str <= '9'` (codepoints 48..57). -/
def isDigitChar (c : Char) : Bool :=
  decide (48 ≤ c.toNat) && decide (c.toNat ≤ 57)

/-- The loop `while (*str digit && max_digits > 0) { result = result*10 + (*str-'0'); ++str; --max_digits; }`
used for the integer part (location.hpp lines 99-103) and for the exponent digits
(lines 160-164).  Returns the accumulator, the remaining budget and the cursor. -/
def readDigits : Nat → Nat → List Char → Nat × Nat × List Char
  | acc, maxd, [] => (acc, maxd, [])
  | acc, maxd, c :: cs =>
    if isDigitChar c = true ∧ 0 < maxd then
      readDigits (acc * 10 + (c.toNat - 48)) (maxd - 1) cs
    else
      (acc, maxd, c :: cs)

/-- The significant fractional digit loop
`for (; scale > 0 && *str digit; --scale, ++str) result = result*10 + (*str-'0');`
(location.hpp lines 121-123). -/
def readFracDigits : Nat → Int → List Char → Nat × Int × List Char
  | acc, scale, [] => (acc, scale, [])
  | acc, scale, c :: cs =>
    if 0 < scale ∧ isDigitChar c = true then
      readFracDigits (acc * 10 + (c.toNat - 48)) (scale - 1) cs
    else
      (acc, scale, c :: cs)

/-- The non-significant fractional digit loop (location.hpp lines 126-130):
digits are consumed and discarded while the budget lasts. -/
def skipDigits : Nat → List Char → Nat × List Char
  | maxd, [] => (maxd, [])
  | maxd, c :: cs =>
    if isDigitChar c = true ∧ 0 < maxd then
      skipDigits (maxd - 1) cs
    else
      (maxd, c :: cs)

/-- `for (; scale < 0 && result > 0; ++scale) result /= 10;`
(location.hpp lines 174-176), with `n` the number of pending increments. -/
def divLoop : Nat → Nat → Nat
  | result, 0 => result
  | result, n + 1 => if 0 < result then divLoop (result / 10) n else result

/-- `for (; scale > 0; --scale) result *= 10;` (location.hpp lines 178-180). -/
def mulLoop : Nat → Nat → Nat
  | result, 0 => result
  | result, n + 1 => mulLoop (result * 10) n

/-- Integer-part block of the parser (location.hpp lines 89-114).
If the first character is not `'.'` there must be at least one digit; further
digits are accumulated under the 10-digit budget, whose exhaustion is an error.
If the first character is `'.'` a digit must immediately follow it (the dot is
not consumed here).  Returns the accumulator and the cursor. -/
def parseIntPart : List Char → Option (Nat × List Char)
  | [] => none
  | c :: rest =>
    if c = '.' then
      match rest with
      | c2 :: _ => if isDigitChar c2 = true then some (0, c :: rest) else none
      | [] => none
    else
      if isDigitChar c = true then
        let t := readDigits (c.toNat - 48) 10 rest
        if t.2.1 = 0 then none else some (t.1, t.2.2)
      else
        none

/-- Optional fraction block of the parser (location.hpp lines 117-135): consume
`'.'`, read up to `scale = 8` significant digits, then skip up to 19 further
digits (a 20th skipped digit exhausts the budget and is an error).  Returns the
accumulator, the remaining scale, and the cursor. -/
def parseFrac (result : Nat) : List Char → Option (Nat × Int × List Char)
  | [] => some (result, 8, [])
  | c :: rest =>
    if c = '.' then
      let t := readFracDigits result 8 rest
      let u := skipDigits 20 t.2.2
      if u.1 = 0 then none else some (t.1, t.2.1, u.2)
    else
      some (result, 8, c :: rest)

/-- Optional exponent block of the parser (location.hpp lines 138-171):
`e`/`E`, an optional minus sign, one required digit and up to four more
(a sixth digit exhausts the budget and is an error); the signed exponent is
added to the scale. -/
def parseExp (result : Nat) (scale : Int) : List Char → Option (Nat × Int × List Char)
  | [] => some (result, scale, [])
  | c :: rest =>
    if c = 'e' ∨ c = 'E' then
      match rest with
      | '-' :: c2 :: r3 =>
        if isDigitChar c2 = true then
          let t := readDigits (c2.toNat - 48) 5 r3
          if t.2.1 = 0 then none else some (result, scale + (t.1 : Int) * (-1), t.2.2)
        else none
      | '-' :: [] => none
      | c2 :: r3 =>
        if isDigitChar c2 = true then
          let t := readDigits (c2.toNat - 48) 5 r3
          if t.2.1 = 0 then none else some (result, scale + (t.1 : Int) * 1, t.2.2)
        else none
      | [] => none
    else
      some (result, scale, c :: rest)

/-- Scale resolution, final half-up rounding, sign application and the 32-bit
range check (location.hpp lines 173-191). -/
def finishResult (sign : Int) (result : Nat) (scale : Int) (s : List Char) :
    Option (Int × List Char) :=
  let result2 := if scale < 0 then divLoop result (-scale).toNat else mulLoop result scale.toNat
  let r : Int := (((result2 + 5) / 10 : Nat) : Int) * sign
  if 2147483647 < r ∨ r < -2147483648 then none else some (r, s)

/-- The parser body after the optional leading minus sign: the sequential
composition of the blocks of location.hpp lines 89-191. -/
def stlc_core (sign : Int) (s : List Char) : Option (Int × List Char) :=
  (parseIntPart s).bind fun a =>
    (parseFrac a.1 a.2).bind fun b =>
      (parseExp b.1 b.2.1 b.2.2).bind fun c =>
        finishResult sign c.1 c.2.1 c.2.2

/-- `detail::string_to_location_coordinate` (location.hpp lines 70-196).
`none` models a thrown `invalid_location`; `some (v, rest)` models returning
`v` with `*data` advanced to `rest`. -/
def string_to_location_coordinate : List Char → Option (Int × List Char)
  | [] => stlc_core 1 []
  | c :: rest => if c = '-' then stlc_core (-1) rest else stlc_core 1 (c :: rest)

/-- The digit-emission do-while loop of the formatter (location.hpp
lines 208-214): emit the decimal digits of `v` into the buffer, least
significant first, at least one digit. -/
def digitsLSD (v : Nat) : List Char :=
  Char.ofNat (v % 10 + 48) :: (if h : v / 10 = 0 then [] else digitsLSD (v / 10))
decreasing_by
  exact Nat.div_lt_self (Nat.pos_of_ne_zero fun hv => h (by simp [hv])) (by norm_num)

/-- The zero-padding loop `while (t-temp < 7) *t++ = '0';` (location.hpp
lines 216-218). -/
def pad7 (ds : List Char) : List Char :=
  ds ++ List.replicate (7 - ds.length) '0'

/-- The trailing-zero scan `while (tn < t && *tn == '0') ++tn;`
(location.hpp lines 234-237): how many `'0'` characters open the buffer. -/
def countLeadingZeros : List Char → Nat
  | [] => 0
  | c :: cs => if c = '0' then countLeadingZeros cs + 1 else 0

/-- The non-negative specialization of the formatter body, written with `Nat`
arithmetic: `append_core_int_nonneg` below proves it equal to the direct
`int32_t` embedding `append_core_int` on every non-negative value, and the
structure lemmas about the formatter output are stated against it. -/
def append_core (value : Nat) : List Char :=
  let temp := pad7 (digitsLSD value)
  let k : Nat :=
    if 100 * coordinate_precision ≤ value then 3
    else if 10 * coordinate_precision ≤ value then 2
    else if coordinate_precision ≤ value then 1
    else 0
  let intPart :=
    if coordinate_precision ≤ value then (temp.drop (temp.length - k)).reverse
    else ['0']
  let tn := countLeadingZeros (temp.take (temp.length - k))
  intPart ++
    (if tn ≠ temp.length - k then
      '.' :: ((temp.take (temp.length - k)).drop tn).reverse
    else [])

/-- The digit-emission do-while loop of the formatter (location.hpp lines
211-214) on the C `int32_t` value `v`, which is negative when the negation
of the most negative value wrapped: C `%` and `/` truncate toward zero
(`Int.tmod` / `Int.tdiv`), and `*t++ = char(v % 10) + '0'` stores codepoint
`48 + v tmod 10` (below 48 for negative `v`).  The loop body runs at most 10
times for any 32-bit value, so the fuel of 11 never runs out on the embedded
domain. -/
def digitsLSDIntGo : Nat → Int → List Char
  | 0, _ => []
  | fuel + 1, v =>
    Char.ofNat (48 + Int.tmod v 10).toNat ::
      (if Int.tdiv v 10 = 0 then [] else digitsLSDIntGo fuel (Int.tdiv v 10))

/-- The digit buffer of location.hpp lines 208-214 for an `int32_t` value. -/
def digitsLSDInt (v : Int) : List Char := digitsLSDIntGo 11 v

/-- Body of `detail::append_location_coordinate_to_string` after the sign has
been handled (location.hpp lines 207-247), on the C `int32_t` value.
The buffer `temp` holds the padded digits least-significant first and `t`
is the write cursor, so:
* the integer-digit block (lines 221-231) pops `k` characters from the top
  of the buffer, where `k` follows the nested `value >= 100/10/1 *
  coordinate_precision` comparisons, each popped via `*--t` — i.e. it emits
  `(temp.drop (temp.length - k)).reverse` — or emits `'0'` when
  `value < coordinate_precision`;
* the fractional block (lines 234-245) emits `'.'` followed by the buffer
  between `tn` and the decremented `t`, again top-down via `*--t`. -/
def append_core_int (value : Int) : List Char :=
  let temp := pad7 (digitsLSDInt value)
  let k : Nat :=
    if 100 * (coordinate_precision : Int) ≤ value then 3
    else if 10 * (coordinate_precision : Int) ≤ value then 2
    else if (coordinate_precision : Int) ≤ value then 1
    else 0
  let intPart :=
    if (coordinate_precision : Int) ≤ value then (temp.drop (temp.length - k)).reverse
    else ['0']
  let tn := countLeadingZeros (temp.take (temp.length - k))
  intPart ++
    (if tn ≠ temp.length - k then
      '.' :: ((temp.take (temp.length - k)).drop tn).reverse
    else [])

/-- Two's-complement wrap-around into the `int32_t` range, the behaviour
real implementations give the signed-overflowing negation at
`-2147483648`. -/
def wrap32 (x : Int) : Int :=
  (x + 2147483648) % 4294967296 - 2147483648

/-- `detail::append_location_coordinate_to_string` (location.hpp lines
199-248): emit `'-'` and negate when `value < 0` (lines 202-205) — the
`int32_t` negation wraps, so `-(-2147483648)` stays `-2147483648` — then
the digit body.  The output iterator is modelled by returning the emitted
characters. -/
def append_location_coordinate_to_string (value : Int) : List Char :=
  (if value < 0 then ['-'] else []) ++
    append_core_int (if value < 0 then wrap32 (-value) else value)

/-- `osmium::Location` (location.hpp lines 266-457): a pair of 32-bit scaled
coordinates.  The `int32_t` members are modelled as `Int`; every operation
below keeps them inside the 32-bit range whenever the inputs are. -/
structure Location where
  m_x : Int
  m_y : Int
deriving DecidableEq

/-- Accessor `x()` (location.hpp lines 348-350). -/
def Location.x (l : Location) : Int := l.m_x

/-- Accessor `y()` (location.hpp lines 352-354). -/
def Location.y (l : Location) : Int := l.m_y

/-- `Location::valid` (location.hpp lines 341-346). -/
def Location.valid (l : Location) : Bool :=
  decide (-180 * (coordinate_precision : Int) ≤ l.m_x) &&
  decide (l.m_x ≤ 180 * (coordinate_precision : Int)) &&
  decide (-90 * (coordinate_precision : Int) ≤ l.m_y) &&
  decide (l.m_y ≤ 90 * (coordinate_precision : Int))

/-- `Location::fix_to_double` (location.hpp lines 283-285).  The IEEE
`double` result is modelled exactly as a rational; for the division by
10^7 the claim statements use the same exact quotient. -/
def fix_to_double (c : Int) : Rat :=
  (c : Rat) / (coordinate_precision : Rat)

/-- `Location::lon` (location.hpp lines 371-376): throws `invalid_location`
(modelled as `none`) when `valid()` is false. -/
def Location.lon (l : Location) : Option Rat :=
  if l.valid = true then some (fix_to_double l.m_x) else none

/-- `Location::lon_without_check` (location.hpp lines 381-383). -/
def Location.lon_without_check (l : Location) : Rat :=
  fix_to_double l.m_x

/-- `Location::set_lon(const char*)` (location.hpp lines 414-421): parse a
full literal into `m_x`, then throw if characters remain.  The result is the
final state of the object paired with `true` on normal return and `false`
when an exception propagates (note that `m_x` is assigned before the
trailing-character check). -/
def Location.set_lon (l : Location) (s : List Char) : Location × Bool :=
  match string_to_location_coordinate s with
  | none => (l, false)
  | some (v, rest) => ({ l with m_x := v }, rest.isEmpty)

/-- `Location::set_lat(const char*)` (location.hpp lines 423-430). -/
def Location.set_lat (l : Location) (s : List Char) : Location × Bool :=
  match string_to_location_coordinate s with
  | none => (l, false)
  | some (v, rest) => ({ l with m_y := v }, rest.isEmpty)

/-- `operator<` on `Location` (location.hpp lines 475-477):
`(lhs.x() == rhs.x() && lhs.y() < rhs.y()) || lhs.x() < rhs.x()`. -/
def location_lt (lhs rhs : Location) : Bool :=
  (decide (lhs.x = rhs.x) && decide (lhs.y < rhs.y)) || decide (lhs.x < rhs.x)

/-- The C locale `isspace` set used by `strtoll` (space, \t, \n, \v, \f, \r). -/
def isSpaceChar (c : Char) : Bool :=
  c = ' ' || c = '\t' || c = '\n' || c = '\x0b' || c = '\x0c' || c = '\r'

/-- Numeric value of a run of digit characters, most significant first,
folded onto `acc` exactly as the C accumulation loops do. -/
def charsVal : Nat → List Char → Nat
  | acc, [] => acc
  | acc, c :: cs => charsVal (acc * 10 + (c.toNat - 48)) cs

/-- Modelled from the C99 specification of `strtoll(str, &end, 10)` (the one
external libc call of misc.hpp): skip white space, read an optional sign and a
nonempty digit run; on no conversion return 0 with `end = str`; clamp to the
`long long` limits setting `errno = ERANGE`.  Result: (value, errno-was-set,
characters after `end`). -/
def strtollModel (s : List Char) : Int × Bool × List Char :=
  let s1 := s.dropWhile isSpaceChar
  let sign : Int := if s1.head? = some '-' then -1 else 1
  let s2 : List Char :=
    if s1.head? = some '-' ∨ s1.head? = some '+' then s1.tail else s1
  let ds := s2.takeWhile isDigitChar
  let rest := s2.dropWhile isDigitChar
  if ds = [] then (0, false, s)
  else
    let n : Int := sign * (charsVal 0 ds : Int)
    if 9223372036854775807 < n then (9223372036854775807, true, rest)
    else if n < -9223372036854775808 then (-9223372036854775808, true, rest)
    else (n, false, rest)

/-- `detail::str_to_int<TReturn>` (misc.hpp lines 78-89).  The template
parameter enters only through `get_max_int<TReturn>()` (misc.hpp lines
58-66), passed here as `M`: return the `strtoll` value unless `errno` was
set, the value is negative, the value is `>= M`, or characters remain after
the number — in which case return 0. -/
def str_to_int (M : Int) (s : List Char) : Int :=
  let t := strtollModel s
  if t.2.1 = true ∨ t.1 < 0 ∨ M ≤ t.1 ∨ t.2.2 ≠ [] then 0 else t.1

/-! ## Specification-side digit list helpers (used to state and prove the
structure of the formatter output). -/

/-- The `k` least significant decimal digits of `v` as characters, least
significant first (fixed width `k`). -/
def lowDigits : Nat → Nat → List Char
  | 0, _ => []
  | k + 1, v => Char.ofNat (v % 10 + 48) :: lowDigits k (v / 10)

/-- Decimal digit characters of `n`, most significant first. -/
def intChars (n : Nat) : List Char := (digitsLSD n).reverse

/-- The fractional block the formatter emits for a residue `r < 10^7`:
empty when all seven fractional digits are zero, otherwise a point followed
by the seven digits with trailing zeros removed. -/
def fracChars (r : Nat) : List Char :=
  let z := countLeadingZeros (lowDigits 7 r)
  if z = 7 then [] else '.' :: ((lowDigits 7 r).drop z).reverse

/-- Whether a cursor position sits on a digit (what each parser loop tests
to decide whether to continue). -/
def headIsDigit : List Char → Bool
  | [] => false
  | c :: _ => isDigitChar c

/-! ## Digit character facts -/

theorem toNat_digitChar (d : Nat) (h : d < 10) : (Char.ofNat (d + 48)).toNat = d + 48 := by
  interval_cases d <;> decide

theorem isDigitChar_digitChar (d : Nat) (h : d < 10) :
    isDigitChar (Char.ofNat (d + 48)) = true := by
  interval_cases d <;> decide

theorem digitChar_val (d : Nat) (h : d < 10) : (Char.ofNat (d + 48)).toNat - 48 = d := by
  rw [toNat_digitChar d h]; omega

theorem digitChar_eq_zero_iff (d : Nat) (h : d < 10) :
    (Char.ofNat (d + 48) = '0') ↔ d = 0 := by
  interval_cases d <;> decide

theorem isDigitChar_toNat {c : Char} (h : isDigitChar c = true) :
    48 ≤ c.toNat ∧ c.toNat ≤ 57 := by
  simp only [isDigitChar, Bool.and_eq_true, decide_eq_true_eq] at h
  exact h

theorem isDigitChar_ne_dot {c : Char} (h : isDigitChar c = true) : c ≠ '.' := by
  intro hc; rw [hc] at h; exact absurd h (by decide)

theorem isDigitChar_ne_minus {c : Char} (h : isDigitChar c = true) : c ≠ '-' := by
  intro hc; rw [hc] at h; exact absurd h (by decide)

theorem isSpaceChar_of_digit {c : Char} (h : isDigitChar c = true) :
    isSpaceChar c = false := by
  obtain ⟨h1, h2⟩ := isDigitChar_toNat h
  cases hsp : isSpaceChar c with
  | false => rfl
  | true =>
    exfalso
    simp only [isSpaceChar, Bool.or_eq_true, decide_eq_true_eq] at hsp
    rcases hsp with ((((hc | hc) | hc) | hc) | hc) | hc <;>
      · rw [hc] at h1; exact absurd h1 (by decide)

/-! ## Accumulation loop lemmas -/

theorem charsVal_nil (acc : Nat) : charsVal acc [] = acc := rfl

theorem charsVal_cons (acc : Nat) (c : Char) (cs : List Char) :
    charsVal acc (c :: cs) = charsVal (acc * 10 + (c.toNat - 48)) cs := rfl

theorem charsVal_append (acc : Nat) (xs ys : List Char) :
    charsVal acc (xs ++ ys) = charsVal (charsVal acc xs) ys := by
  induction xs generalizing acc with
  | nil => rfl
  | cons c cs ih => rw [List.cons_append, charsVal_cons, charsVal_cons, ih]

theorem charsVal_cons_zero (c : Char) (cs : List Char) :
    charsVal 0 (c :: cs) = charsVal (c.toNat - 48) cs := by
  rw [charsVal_cons, Nat.zero_mul, Nat.zero_add]

theorem readDigits_cons (acc maxd : Nat) (c : Char) (cs : List Char) :
    readDigits acc maxd (c :: cs) =
      if isDigitChar c = true ∧ 0 < maxd then
        readDigits (acc * 10 + (c.toNat - 48)) (maxd - 1) cs
      else (acc, maxd, c :: cs) := rfl

theorem readDigits_stop (acc maxd : Nat) (s : List Char) (h : headIsDigit s = false) :
    readDigits acc maxd s = (acc, maxd, s) := by
  cases s with
  | nil => rfl
  | cons c cs =>
    simp only [headIsDigit] at h
    rw [readDigits_cons, if_neg]
    simp [h]

theorem readDigits_digits (ds : List Char) (acc maxd : Nat) (rest : List Char)
    (hds : ∀ c ∈ ds, isDigitChar c = true) (hlen : ds.length < maxd)
    (hrest : headIsDigit rest = false) :
    readDigits acc maxd (ds ++ rest) = (charsVal acc ds, maxd - ds.length, rest) := by
  induction ds generalizing acc maxd with
  | nil => simpa [charsVal_nil] using readDigits_stop acc maxd rest hrest
  | cons c cs ih =>
    have hc : isDigitChar c = true := hds c (by simp)
    have hlt : 0 < maxd := by simp only [List.length_cons] at hlen; omega
    rw [List.cons_append, readDigits_cons,
      if_pos (⟨hc, hlt⟩ : isDigitChar c = true ∧ 0 < maxd),
      ih (acc * 10 + (c.toNat - 48)) (maxd - 1)
        (fun x hx => hds x (by simp [hx]))
        (by simp only [List.length_cons] at hlen; omega),
      charsVal_cons]
    simp only [List.length_cons]
    congr 2
    omega

theorem readDigits_maxd_zero (acc : Nat) (s : List Char) :
    (readDigits acc 0 s).2.1 = 0 := by
  cases s with
  | nil => rfl
  | cons c cs => rw [readDigits_cons, if_neg]; simp

theorem readDigits_overflow (ds : List Char) (acc maxd : Nat) (rest : List Char)
    (hds : ∀ c ∈ ds, isDigitChar c = true) (hlen : maxd ≤ ds.length) :
    (readDigits acc maxd (ds ++ rest)).2.1 = 0 := by
  induction ds generalizing acc maxd with
  | nil =>
    have : maxd = 0 := by simpa using hlen
    subst this
    exact readDigits_maxd_zero acc rest
  | cons c cs ih =>
    cases maxd with
    | zero => exact readDigits_maxd_zero acc _
    | succ m =>
      have hc : isDigitChar c = true := hds c (by simp)
      rw [List.cons_append, readDigits_cons,
        if_pos (⟨hc, Nat.succ_pos m⟩ : isDigitChar c = true ∧ 0 < m + 1)]
      exact ih _ m (fun x hx => hds x (by simp [hx]))
        (by simp only [List.length_cons] at hlen; omega)

theorem readFracDigits_cons (acc : Nat) (scale : Int) (c : Char) (cs : List Char) :
    readFracDigits acc scale (c :: cs) =
      if 0 < scale ∧ isDigitChar c = true then
        readFracDigits (acc * 10 + (c.toNat - 48)) (scale - 1) cs
      else (acc, scale, c :: cs) := rfl

theorem readFracDigits_stop (acc : Nat) (scale : Int) (s : List Char)
    (h : headIsDigit s = false) :
    readFracDigits acc scale s = (acc, scale, s) := by
  cases s with
  | nil => rfl
  | cons c cs =>
    simp only [headIsDigit] at h
    rw [readFracDigits_cons, if_neg]
    simp [h]

theorem readFracDigits_digits (ds : List Char) (acc : Nat) (scale : Int) (rest : List Char)
    (hds : ∀ c ∈ ds, isDigitChar c = true) (hlen : (ds.length : Int) < scale)
    (hrest : headIsDigit rest = false) :
    readFracDigits acc scale (ds ++ rest) =
      (charsVal acc ds, scale - ds.length, rest) := by
  induction ds generalizing acc scale with
  | nil => simpa [charsVal_nil] using readFracDigits_stop acc scale rest hrest
  | cons c cs ih =>
    have hc : isDigitChar c = true := hds c (by simp)
    have hlt : (0 : Int) < scale := by
      simp only [List.length_cons] at hlen
      omega
    rw [List.cons_append, readFracDigits_cons,
      if_pos (⟨hlt, hc⟩ : (0 : Int) < scale ∧ isDigitChar c = true),
      ih (acc * 10 + (c.toNat - 48)) (scale - 1)
        (fun x hx => hds x (by simp [hx]))
        (by simp only [List.length_cons] at hlen; push_cast at hlen ⊢; omega),
      charsVal_cons]
    simp only [List.length_cons]
    congr 2
    push_cast
    ring

theorem skipDigits_nil (maxd : Nat) : skipDigits maxd [] = (maxd, []) := rfl

theorem mulLoop_eq (a n : Nat) : mulLoop a n = a * 10 ^ n := by
  induction n generalizing a with
  | zero => simp [mulLoop]
  | succ m ih => rw [mulLoop, ih]; ring

/-! ## List helpers -/

theorem take_append_self (xs ys : List Char) : (xs ++ ys).take xs.length = xs := by
  induction xs with
  | nil => rfl
  | cons c cs ih => simp [ih]

theorem drop_append_self (xs ys : List Char) : (xs ++ ys).drop xs.length = ys := by
  induction xs with
  | nil => rfl
  | cons c cs ih => simp [ih]

theorem take_all_of_length_le : ∀ (l : List Char) (n : Nat), l.length ≤ n → l.take n = l := by
  intro l
  induction l with
  | nil => intro n _; simp
  | cons c cs ih =>
    intro n hn
    cases n with
    | zero => simp at hn
    | succ m =>
      simp only [List.take_succ_cons]
      rw [ih m (by simpa using hn)]

theorem getLast?_append_singleton (xs : List Char) (a : Char) :
    (xs ++ [a]).getLast? = some a := by
  induction xs with
  | nil => rfl
  | cons c cs ih =>
    rw [List.cons_append, List.getLast?_cons]
    simp only [List.getLastD_eq_getLast?, ih]
    rfl

/-! ## Digit buffer lemmas -/

theorem digitsLSD_eq (v : Nat) :
    digitsLSD v =
      Char.ofNat (v % 10 + 48) :: (if v / 10 = 0 then [] else digitsLSD (v / 10)) := by
  rw [digitsLSD]
  congr 1

theorem digitsLSD_small {v : Nat} (h : v < 10) : digitsLSD v = [Char.ofNat (v + 48)] := by
  rw [digitsLSD_eq, Nat.mod_eq_of_lt h, if_pos (by omega)]

theorem digitsLSD_large {v : Nat} (h : 10 ≤ v) :
    digitsLSD v = Char.ofNat (v % 10 + 48) :: digitsLSD (v / 10) := by
  rw [digitsLSD_eq, if_neg (by omega)]

theorem digitsLSD_length_pos (v : Nat) : 0 < (digitsLSD v).length := by
  rw [digitsLSD_eq]
  simp

theorem digitsLSD_ne_nil (v : Nat) : digitsLSD v ≠ [] := by
  rw [digitsLSD_eq]
  simp

theorem mem_digitsLSD : ∀ v : Nat, ∀ c ∈ digitsLSD v, isDigitChar c = true := by
  intro v
  induction v using Nat.strongRecOn with
  | _ v ih =>
    intro c hc
    by_cases hv : v < 10
    · rw [digitsLSD_small hv] at hc
      simp only [List.mem_singleton] at hc
      subst hc
      exact isDigitChar_digitChar v hv
    · rw [digitsLSD_large (by omega)] at hc
      rcases List.mem_cons.mp hc with h | h
      · subst h
        exact isDigitChar_digitChar _ (Nat.mod_lt v (by norm_num))
      · exact ih (v / 10) (Nat.div_lt_self (by omega) (by norm_num)) c h

theorem digitsLSD_length_le : ∀ v n : Nat, 1 ≤ n → v < 10 ^ n →
    (digitsLSD v).length ≤ n := by
  intro v
  induction v using Nat.strongRecOn with
  | _ v ih =>
    intro n hn hv
    by_cases h10 : v < 10
    · rw [digitsLSD_small h10]
      simpa using hn
    · have hn2 : 2 ≤ n := by
        by_contra hcon
        have hn1 : n = 1 := by omega
        subst hn1
        simp only [pow_one] at hv
        omega
      rw [digitsLSD_large (by omega)]
      have hdiv : v / 10 < 10 ^ (n - 1) := by
        rw [Nat.div_lt_iff_lt_mul (by norm_num)]
        calc v < 10 ^ n := hv
        _ = 10 ^ (n - 1) * 10 := by
            rw [← pow_succ]
            congr 1
            omega
      have := ih (v / 10) (Nat.div_lt_self (by omega) (by norm_num)) (n - 1) (by omega) hdiv
      simp only [List.length_cons]
      omega

theorem digitsLSD_length_ge : ∀ n v : Nat, 10 ^ n ≤ v → n < (digitsLSD v).length := by
  intro n
  induction n with
  | zero => intro v _; exact digitsLSD_length_pos v
  | succ m ih =>
    intro v hv
    have h10 : 10 ≤ v := le_trans (by calc (10:Nat) = 10^1 := (pow_one 10).symm
      _ ≤ 10 ^ (m+1) := Nat.pow_le_pow_right (by norm_num) (by omega)) hv
    rw [digitsLSD_large h10]
    have : 10 ^ m ≤ v / 10 := by
      rw [Nat.le_div_iff_mul_le (by norm_num)]
      calc 10 ^ m * 10 = 10 ^ (m + 1) := (pow_succ 10 m).symm
      _ ≤ v := hv
    have := ih (v / 10) this
    simp only [List.length_cons]
    omega

theorem charsVal_digitsLSD_reverse : ∀ v a : Nat,
    charsVal a (digitsLSD v).reverse = a * 10 ^ (digitsLSD v).length + v := by
  intro v
  induction v using Nat.strongRecOn with
  | _ v ih =>
    intro a
    by_cases h10 : v < 10
    · rw [digitsLSD_small h10]
      simp only [List.reverse_singleton, List.length_singleton]
      rw [charsVal_cons, charsVal_nil, digitChar_val v h10]
      ring
    · rw [digitsLSD_large (by omega)]
      simp only [List.reverse_cons, List.length_cons]
      rw [charsVal_append, ih (v / 10) (Nat.div_lt_self (by omega) (by norm_num)) a,
        charsVal_cons, charsVal_nil,
        digitChar_val _ (Nat.mod_lt v (by norm_num))]
      have hvd : v / 10 * 10 + v % 10 = v := by omega
      calc (a * 10 ^ (digitsLSD (v / 10)).length + v / 10) * 10 + v % 10
          = a * (10 ^ (digitsLSD (v / 10)).length * 10) + (v / 10 * 10 + v % 10) := by ring
      _ = a * 10 ^ ((digitsLSD (v / 10)).length + 1) + v := by rw [hvd, pow_succ]

/-! ## Fixed-width low digit lemmas -/

theorem lowDigits_length : ∀ k v : Nat, (lowDigits k v).length = k := by
  intro k
  induction k with
  | zero => intro v; rfl
  | succ m ih => intro v; simp [lowDigits, ih]

theorem mem_lowDigits : ∀ k v : Nat, ∀ c ∈ lowDigits k v, isDigitChar c = true := by
  intro k
  induction k with
  | zero => intro v c hc; simp [lowDigits] at hc
  | succ m ih =>
    intro v c hc
    rcases List.mem_cons.mp hc with h | h
    · subst h
      exact isDigitChar_digitChar _ (Nat.mod_lt v (by norm_num))
    · exact ih (v / 10) c h

theorem lowDigits_zero_val : ∀ k : Nat, lowDigits k 0 = List.replicate k '0' := by
  intro k
  induction k with
  | zero => rfl
  | succ m ih =>
    show Char.ofNat (0 % 10 + 48) :: lowDigits m (0 / 10) = _
    rw [Nat.zero_mod, Nat.zero_div, ih]
    rfl

theorem mod_ten_pow_succ (v k : Nat) : v % 10 ^ (k + 1) = v % 10 + 10 * (v / 10 % 10 ^ k) := by
  rw [pow_succ']
  exact Nat.mod_mul

theorem mod_ten_pow_succ_div (v k : Nat) : v % 10 ^ (k + 1) / 10 = v / 10 % 10 ^ k := by
  rw [mod_ten_pow_succ]
  rw [Nat.add_mul_div_left _ _ (by norm_num : (0:Nat) < 10)]
  rw [Nat.div_eq_of_lt (Nat.mod_lt v (by norm_num))]
  omega

theorem lowDigits_mod : ∀ k v : Nat, lowDigits k (v % 10 ^ k) = lowDigits k v := by
  intro k
  induction k with
  | zero => intro v; rfl
  | succ m ih =>
    intro v
    show Char.ofNat (v % 10 ^ (m + 1) % 10 + 48) :: lowDigits m (v % 10 ^ (m + 1) / 10)
      = Char.ofNat (v % 10 + 48) :: lowDigits m (v / 10)
    rw [Nat.mod_mod_of_dvd v (dvd_pow_self 10 (Nat.succ_ne_zero m)), mod_ten_pow_succ_div,
      ih (v / 10)]

theorem lowDigits_drop : ∀ j k v : Nat, j ≤ k →
    (lowDigits k v).drop j = lowDigits (k - j) (v / 10 ^ j) := by
  intro j
  induction j with
  | zero => intro k v _; simp
  | succ m ih =>
    intro k v hj
    cases k with
    | zero => omega
    | succ k2 =>
      show (lowDigits (k2 + 1) v).drop (m + 1) = _
      have : (lowDigits (k2 + 1) v).drop (m + 1) = (lowDigits k2 (v / 10)).drop m := rfl
      rw [this, ih k2 (v / 10) (by omega)]
      congr 1
      · omega
      · rw [Nat.div_div_eq_div_mul, ← pow_succ']

theorem charsVal_lowDigits : ∀ k v a : Nat,
    charsVal a (lowDigits k v).reverse = a * 10 ^ k + v % 10 ^ k := by
  intro k
  induction k with
  | zero =>
    intro v a
    simp [lowDigits, charsVal_nil, Nat.mod_one]
  | succ m ih =>
    intro v a
    show charsVal a (Char.ofNat (v % 10 + 48) :: lowDigits m (v / 10)).reverse = _
    simp only [List.reverse_cons]
    rw [charsVal_append, ih (v / 10) a, charsVal_cons, charsVal_nil,
      digitChar_val _ (Nat.mod_lt v (by norm_num)), mod_ten_pow_succ]
    ring

theorem countLeadingZeros_lowDigits : ∀ k v : Nat,
    countLeadingZeros (lowDigits k v) ≤ k ∧
    (v % 10 ^ k) % 10 ^ countLeadingZeros (lowDigits k v) = 0 ∧
    (countLeadingZeros (lowDigits k v) < k →
      (v % 10 ^ k) / 10 ^ countLeadingZeros (lowDigits k v) % 10 ≠ 0) := by
  intro k
  induction k with
  | zero =>
    intro v
    exact ⟨le_refl 0, by simp [Nat.mod_one], fun h => absurd h (by omega)⟩
  | succ m ih =>
    intro v
    have hlow : lowDigits (m + 1) v = Char.ofNat (v % 10 + 48) :: lowDigits m (v / 10) := rfl
    by_cases hmod : v % 10 = 0
    · have hzc : Char.ofNat (v % 10 + 48) = '0' := by
        rw [hmod]
      have hclz : countLeadingZeros (lowDigits (m + 1) v)
          = countLeadingZeros (lowDigits m (v / 10)) + 1 := by
        rw [hlow, countLeadingZeros, if_pos hzc]
      obtain ⟨ih1, ih2, ih3⟩ := ih (v / 10)
      set z := countLeadingZeros (lowDigits m (v / 10)) with hz
      have hsplit : v % 10 ^ (m + 1) = 10 * (v / 10 % 10 ^ m) := by
        rw [mod_ten_pow_succ, hmod]
        omega
      refine ⟨by omega, ?_, ?_⟩
      · rw [hclz, hsplit, pow_succ']
        rw [Nat.mul_mod_mul_left]
        rw [ih2]
      · intro hlt
        rw [hclz, hsplit, pow_succ', Nat.mul_div_mul_left _ _ (by norm_num : (0:Nat) < 10)]
        exact ih3 (by omega)
    · have hzc : ¬(Char.ofNat (v % 10 + 48) = '0') := by
        rw [digitChar_eq_zero_iff _ (Nat.mod_lt v (by norm_num))]
        exact hmod
      have hclz : countLeadingZeros (lowDigits (m + 1) v) = 0 := by
        rw [hlow, countLeadingZeros, if_neg hzc]
      refine ⟨by omega, by rw [hclz, pow_zero]; exact Nat.mod_one _, ?_⟩
      intro _
      rw [hclz, pow_zero, Nat.div_one,
        Nat.mod_mod_of_dvd v (dvd_pow_self 10 (Nat.succ_ne_zero m))]
      exact hmod
/-! ## Formatter structure -/

theorem digitsLSD_pad : ∀ v k : Nat, 1 ≤ k → v < 10 ^ k →
    digitsLSD v ++ List.replicate (k - (digitsLSD v).length) '0' = lowDigits k v := by
  intro v
  induction v using Nat.strongRecOn with
  | _ v ih =>
    intro k hk hv
    by_cases h10 : v < 10
    · rw [digitsLSD_small h10]
      cases k with
      | zero => omega
      | succ k2 =>
        have : lowDigits (k2 + 1) v = Char.ofNat (v % 10 + 48) :: lowDigits k2 (v / 10) := rfl
        rw [this, Nat.mod_eq_of_lt h10, Nat.div_eq_of_lt h10, lowDigits_zero_val]
        simp only [List.length_singleton, List.singleton_append]
        congr 1
    · cases k with
      | zero => omega
      | succ k2 =>
        have hk2 : 1 ≤ k2 := by
          by_contra hcon
          have hk0 : k2 = 0 := by omega
          subst hk0
          have : v < 10 := by simpa using hv
          omega
        have hdiv : v / 10 < 10 ^ k2 := by
          rw [Nat.div_lt_iff_lt_mul (by norm_num)]
          calc v < 10 ^ (k2 + 1) := hv
          _ = 10 ^ k2 * 10 := by rw [pow_succ]
        rw [digitsLSD_large (by omega)]
        have hlow : lowDigits (k2 + 1) v
            = Char.ofNat (v % 10 + 48) :: lowDigits k2 (v / 10) := rfl
        rw [hlow, ← ih (v / 10) (Nat.div_lt_self (by omega) (by norm_num)) k2 hk2 hdiv]
        simp only [List.length_cons, List.cons_append]
        congr 3
        omega

theorem digitsLSD_split : ∀ k v : Nat, v / 10 ^ k ≠ 0 →
    digitsLSD v = lowDigits k v ++ digitsLSD (v / 10 ^ k) := by
  intro k
  induction k with
  | zero =>
    intro v _
    simp [lowDigits, Nat.div_one]
  | succ m ih =>
    intro v hv
    have hge : 10 ^ (m + 1) ≤ v := by
      by_contra hcon
      exact hv (Nat.div_eq_of_lt (by omega))
    have h10 : 10 ≤ v := le_trans (by
      calc (10:Nat) = 10 ^ 1 := (pow_one 10).symm
      _ ≤ 10 ^ (m + 1) := Nat.pow_le_pow_right (by norm_num) (by omega)) hge
    have hdd : v / 10 / 10 ^ m = v / 10 ^ (m + 1) := by
      rw [Nat.div_div_eq_div_mul, ← pow_succ']
    rw [digitsLSD_large h10, ih (v / 10) (by rw [hdd]; exact hv)]
    have hlow : lowDigits (m + 1) v
        = Char.ofNat (v % 10 + 48) :: lowDigits m (v / 10) := rfl
    rw [hlow, hdd]
    rfl

theorem pad7_small {v : Nat} (h : v < 10 ^ 7) : pad7 (digitsLSD v) = lowDigits 7 v := by
  rw [pad7]
  exact digitsLSD_pad v 7 (by norm_num) h

theorem pad7_large {v : Nat} (h : 10 ^ 7 ≤ v) : pad7 (digitsLSD v) = digitsLSD v := by
  rw [pad7]
  have h8 : 7 < (digitsLSD v).length := digitsLSD_length_ge 7 v h
  have : 7 - (digitsLSD v).length = 0 := by omega
  rw [this]
  simp

theorem fracChars_eq_if (r : Nat) :
    fracChars r = if countLeadingZeros (lowDigits 7 r) ≠ 7 then
      '.' :: ((lowDigits 7 r).drop (countLeadingZeros (lowDigits 7 r))).reverse
    else [] := by
  rw [fracChars]
  rcases eq_or_ne (countLeadingZeros (lowDigits 7 r)) 7 with h7 | h7
  · rw [if_pos h7, if_neg (by omega)]
  · rw [if_neg h7, if_pos (by omega)]

/-- Structure of the formatter output for a non-negative value below 10^10:
most-significant-first digits of `value / 10^7` (just `'0'` when that
quotient is zero), followed by the fractional block of `value % 10^7`. -/
theorem append_core_eq (value : Nat) (hv : value < 10 ^ 10) :
    append_core value = intChars (value / coordinate_precision)
      ++ fracChars (value % coordinate_precision) := by
  have hcp : coordinate_precision = 10 ^ 7 := by norm_num [coordinate_precision]
  by_cases hsmall : value < 10 ^ 7
  · -- q = 0: single zero integer digit, fraction comes from value itself
    have htemp : pad7 (digitsLSD value) = lowDigits 7 value := pad7_small hsmall
    have hlen : (pad7 (digitsLSD value)).length = 7 := by
      rw [htemp, lowDigits_length]
    have hq : value / coordinate_precision = 0 := by
      rw [hcp]
      exact Nat.div_eq_of_lt hsmall
    have hr : value % coordinate_precision = value := by
      rw [hcp]
      exact Nat.mod_eq_of_lt hsmall
    have hnc1 : ¬(coordinate_precision ≤ value) := by rw [hcp]; omega
    have hnc2 : ¬(10 * coordinate_precision ≤ value) := by rw [hcp]; omega
    have hnc3 : ¬(100 * coordinate_precision ≤ value) := by rw [hcp]; omega
    simp only [append_core]
    rw [htemp, lowDigits_length]
    simp only [if_neg hnc1, if_neg hnc2, if_neg hnc3, Nat.sub_zero]
    rw [hq, hr]
    have hzero : intChars 0 = ['0'] := by
      rw [intChars, digitsLSD_small (by norm_num)]
      rfl
    rw [hzero]
    have htake : (lowDigits 7 value).take 7 = lowDigits 7 value :=
      take_all_of_length_le _ 7 (by rw [lowDigits_length])
    rw [htake, fracChars_eq_if]
  · -- q ≥ 1: integer digits of the quotient, fraction from the residue
    have hge : 10 ^ 7 ≤ value := le_of_not_lt hsmall
    have hq0 : value / 10 ^ 7 ≠ 0 :=
      Nat.pos_iff_ne_zero.mp (Nat.div_pos hge (by norm_num))
    have hqlt : value / 10 ^ 7 < 10 ^ 3 := by
      rw [Nat.div_lt_iff_lt_mul (by norm_num)]
      calc value < 10 ^ 10 := hv
      _ = 10 ^ 3 * 10 ^ 7 := by norm_num
    have hlenq3 : (digitsLSD (value / 10 ^ 7)).length ≤ 3 :=
      digitsLSD_length_le _ 3 (by norm_num) hqlt
    have hlenq1 : 0 < (digitsLSD (value / 10 ^ 7)).length := digitsLSD_length_pos _
    have htemp : pad7 (digitsLSD value) = digitsLSD value := pad7_large hge
    have hsplit : digitsLSD value = lowDigits 7 value ++ digitsLSD (value / 10 ^ 7) :=
      digitsLSD_split 7 value hq0
    have hlen : (digitsLSD value).length = 7 + (digitsLSD (value / 10 ^ 7)).length := by
      rw [hsplit, List.length_append, lowDigits_length]
    have hcond1 : coordinate_precision ≤ value := by rw [hcp]; exact hge
    have hk : (if 100 * coordinate_precision ≤ value then 3
        else if 10 * coordinate_precision ≤ value then 2
        else if coordinate_precision ≤ value then 1 else 0)
        = (digitsLSD (value / 10 ^ 7)).length := by
      by_cases h3 : 100 * coordinate_precision ≤ value
      · rw [if_pos h3]
        have : 10 ^ 2 ≤ value / 10 ^ 7 := by
          rw [Nat.le_div_iff_mul_le (by norm_num)]
          calc (10:Nat) ^ 2 * 10 ^ 7 = 100 * coordinate_precision := by
                norm_num [coordinate_precision]
          _ ≤ value := h3
        have := digitsLSD_length_ge 2 _ this
        omega
      · rw [if_neg h3]
        have hq2 : value / 10 ^ 7 < 10 ^ 2 := by
          rw [Nat.div_lt_iff_lt_mul (by norm_num)]
          have : value < 100 * coordinate_precision := by omega
          calc value < 100 * coordinate_precision := this
          _ = 10 ^ 2 * 10 ^ 7 := by norm_num [coordinate_precision]
        have hle2 : (digitsLSD (value / 10 ^ 7)).length ≤ 2 :=
          digitsLSD_length_le _ 2 (by norm_num) hq2
        by_cases h2 : 10 * coordinate_precision ≤ value
        · rw [if_pos h2]
          have : 10 ^ 1 ≤ value / 10 ^ 7 := by
            rw [Nat.le_div_iff_mul_le (by norm_num)]
            calc (10:Nat) ^ 1 * 10 ^ 7 = 10 * coordinate_precision := by
                  norm_num [coordinate_precision]
            _ ≤ value := h2
          have := digitsLSD_length_ge 1 _ this
          omega
        · rw [if_neg h2, if_pos hcond1]
          have hq1 : value / 10 ^ 7 < 10 ^ 1 := by
            rw [Nat.div_lt_iff_lt_mul (by norm_num)]
            have : value < 10 * coordinate_precision := by omega
            calc value < 10 * coordinate_precision := this
            _ = 10 ^ 1 * 10 ^ 7 := by norm_num [coordinate_precision]
          have hle1 : (digitsLSD (value / 10 ^ 7)).length ≤ 1 :=
            digitsLSD_length_le _ 1 (by norm_num) hq1
          omega
    simp only [append_core]
    rw [htemp, hk, if_pos hcond1, hlen]
    have hsub : 7 + (digitsLSD (value / 10 ^ 7)).length - (digitsLSD (value / 10 ^ 7)).length
        = 7 := by omega
    rw [hsub]
    have hdrop : (digitsLSD value).drop 7 = digitsLSD (value / 10 ^ 7) := by
      rw [hsplit, ← lowDigits_length 7 value]
      exact drop_append_self _ _
    have htake : (digitsLSD value).take 7 = lowDigits 7 value := by
      rw [hsplit, ← lowDigits_length 7 value]
      exact take_append_self _ _
    have hlowr : lowDigits 7 value = lowDigits 7 (value % coordinate_precision) := by
      rw [hcp, lowDigits_mod]
    rw [hdrop, htake, hlowr]
    have hqcp : value / 10 ^ 7 = value / coordinate_precision := by rw [hcp]
    rw [hqcp, show intChars (value / coordinate_precision)
      = (digitsLSD (value / coordinate_precision)).reverse from rfl, fracChars_eq_if]

/-! ## Parsing the formatter output -/

theorem parseIntPart_digits (c0 : Char) (ds rest : List Char)
    (h0 : isDigitChar c0 = true) (hds : ∀ c ∈ ds, isDigitChar c = true)
    (hlen : ds.length < 10) (hrest : headIsDigit rest = false) :
    parseIntPart ((c0 :: ds) ++ rest) = some (charsVal 0 (c0 :: ds), rest) := by
  have hdot : ¬(c0 = '.') := isDigitChar_ne_dot h0
  rw [List.cons_append]
  simp only [parseIntPart, if_neg hdot, if_pos h0]
  rw [readDigits_digits ds _ 10 rest hds hlen hrest]
  rw [if_neg (show ¬(((charsVal (c0.toNat - 48) ds, 10 - ds.length, rest) :
    Nat × Nat × List Char).2.1 = 0) by simp only []; omega)]
  rw [charsVal_cons_zero]

theorem parseFrac_nil (r : Nat) : parseFrac r [] = some (r, 8, []) := rfl

theorem parseFrac_digits (r : Nat) (ds : List Char)
    (hds : ∀ c ∈ ds, isDigitChar c = true) (hlen : ds.length < 8) :
    parseFrac r ('.' :: ds) = some (charsVal r ds, 8 - (ds.length : Int), []) := by
  have hfd := readFracDigits_digits ds r 8 [] hds (by exact_mod_cast hlen) rfl
  rw [List.append_nil] at hfd
  simp only [parseFrac, if_pos rfl]
  rw [hfd]
  rw [if_neg (show ¬((skipDigits 20 ((charsVal r ds, 8 - (ds.length : Int), ([] : List Char))).2.2).1 = 0)
    by rw [show ((charsVal r ds, 8 - (ds.length : Int), ([] : List Char))).2.2 = [] from rfl,
      skipDigits_nil]; omega)]
  rw [if_pos trivial]
  rfl

theorem parseExp_nil (r : Nat) (sc : Int) : parseExp r sc [] = some (r, sc, []) := rfl

theorem headIsDigit_fracChars (r : Nat) : headIsDigit (fracChars r) = false := by
  rw [fracChars_eq_if]
  rcases eq_or_ne (countLeadingZeros (lowDigits 7 r)) 7 with h7 | h7
  · rw [if_neg (by omega)]
    rfl
  · rw [if_pos (by omega)]
    rfl

theorem intChars_ne_nil (q : Nat) : intChars q ≠ [] := by
  rw [intChars]
  simp [digitsLSD_ne_nil]

theorem mem_intChars (q : Nat) : ∀ c ∈ intChars q, isDigitChar c = true := by
  intro c hc
  exact mem_digitsLSD q c (List.mem_reverse.mp hc)

theorem charsVal_intChars (q : Nat) : charsVal 0 (intChars q) = q := by
  rw [intChars]
  have := charsVal_digitsLSD_reverse q 0
  simpa using this

theorem intChars_length (q : Nat) : (intChars q).length = (digitsLSD q).length := by
  rw [intChars, List.length_reverse]

/-- Parsing the formatter body: on `append_core w` the parser core returns
exactly `w` (with the sign applied) and consumes the whole string. -/
theorem stlc_core_append_core (sign : Int) (hs : sign = 1 ∨ sign = -1) (w : Nat)
    (hw : w ≤ 2147483647) :
    stlc_core sign (append_core w) = some ((w : Int) * sign, []) := by
  have hcp : coordinate_precision = 10 ^ 7 := by norm_num [coordinate_precision]
  have hv10 : w < 10 ^ 10 := by
    calc w ≤ 2147483647 := hw
    _ < 10 ^ 10 := by norm_num
  rw [append_core_eq w hv10]
  have hrlt : w % coordinate_precision < 10 ^ 7 := by
    rw [hcp]
    exact Nat.mod_lt w (by norm_num)
  have hqlt : w / coordinate_precision < 1000 := by
    rw [hcp, Nat.div_lt_iff_lt_mul (by norm_num)]
    calc w < 10 ^ 10 := hv10
    _ = 1000 * 10 ^ 7 := by norm_num
  have hwqr : w / coordinate_precision * coordinate_precision + w % coordinate_precision
      = w := by
    rw [Nat.mul_comm]
    exact Nat.div_add_mod w coordinate_precision
  obtain ⟨c0, ds, hids⟩ : ∃ c0 ds, intChars (w / coordinate_precision) = c0 :: ds := by
    cases hic : intChars (w / coordinate_precision) with
    | nil => exact absurd hic (intChars_ne_nil _)
    | cons a b => exact ⟨a, b, rfl⟩
  have hc0 : isDigitChar c0 = true :=
    mem_intChars _ c0 (by rw [hids]; simp)
  have hdsd : ∀ c ∈ ds, isDigitChar c = true := by
    intro c hc
    exact mem_intChars _ c (by rw [hids]; simp [hc])
  have hdslen : ds.length < 10 := by
    have h3 : (digitsLSD (w / coordinate_precision)).length ≤ 3 :=
      digitsLSD_length_le _ 3 (by norm_num) (by
        calc w / coordinate_precision < 1000 := hqlt
        _ = 10 ^ 3 := by norm_num)
    have := intChars_length (w / coordinate_precision)
    rw [hids] at this
    simp only [List.length_cons] at this
    omega
  have hcv : charsVal 0 (c0 :: ds) = w / coordinate_precision := by
    rw [← hids, charsVal_intChars]
  have h1 : parseIntPart (intChars (w / coordinate_precision)
      ++ fracChars (w % coordinate_precision))
      = some (w / coordinate_precision, fracChars (w % coordinate_precision)) := by
    rw [hids, parseIntPart_digits c0 ds (fracChars (w % coordinate_precision)) hc0 hdsd hdslen
      (headIsDigit_fracChars _), hcv]
  have hwi : (w : Int) ≤ 2147483647 := by exact_mod_cast hw
  by_cases hr0 : w % coordinate_precision = 0
  · -- all fractional digits are zero: no decimal point was emitted
    have hfc : fracChars 0 = [] := by decide
    have h2 : parseFrac (w / coordinate_precision) (fracChars (w % coordinate_precision))
        = some (w / coordinate_precision, (8 : Int), []) := by
      rw [hr0, hfc, parseFrac_nil]
    have h4 : finishResult sign (w / coordinate_precision) 8 []
        = some ((w : Int) * sign, []) := by
      rw [finishResult]
      rw [if_neg (by norm_num : ¬((8 : Int) < 0))]
      rw [show ((8 : Int)).toNat = 8 from rfl, mulLoop_eq]
      have hx : (w / coordinate_precision * 10 ^ 8 + 5) / 10 = w := by
        have he1 : w / coordinate_precision * 10 ^ 8
            = (w / coordinate_precision * 10 ^ 7) * 10 := by ring
        have he2 : w / coordinate_precision * 10 ^ 7 = w := by
          rw [← hcp]
          calc w / coordinate_precision * coordinate_precision
              = w / coordinate_precision * coordinate_precision
                + w % coordinate_precision := by rw [hr0, Nat.add_zero]
          _ = w := hwqr
        rw [he1, he2]
        omega
      rw [hx]
      rw [if_neg (by rcases hs with rfl | rfl <;> omega)]
    simp only [stlc_core, h1, Option.some_bind, h2, parseExp_nil, h4]
  · -- at least one nonzero fractional digit: a decimal point was emitted
    obtain ⟨hz1, hz2, hz3⟩ := countLeadingZeros_lowDigits 7 (w % coordinate_precision)
    rw [Nat.mod_eq_of_lt hrlt] at hz2 hz3
    set z := countLeadingZeros (lowDigits 7 (w % coordinate_precision)) with hzdef
    have hz7 : z < 7 := by
      rcases Nat.lt_or_ge z 7 with h | h
      · exact h
      · exfalso
        have h7 : z = 7 := by omega
        rw [h7] at hz2
        have : w % coordinate_precision = 0 := by
          have hm : w % coordinate_precision % 10 ^ 7 = w % coordinate_precision :=
            Nat.mod_eq_of_lt hrlt
          omega
        exact hr0 this
    have hpow : (10 : Nat) ^ (7 - z) * 10 ^ z = 10 ^ 7 := by
      rw [← pow_add]
      congr 1
      omega
    have hfc : fracChars (w % coordinate_precision)
        = '.' :: (lowDigits (7 - z) (w % coordinate_precision / 10 ^ z)).reverse := by
      rw [fracChars_eq_if, if_pos (by omega), ← hzdef,
        lowDigits_drop z 7 _ (by omega)]
    have hfdsd : ∀ c ∈ (lowDigits (7 - z) (w % coordinate_precision / 10 ^ z)).reverse,
        isDigitChar c = true := by
      intro c hc
      exact mem_lowDigits _ _ c (List.mem_reverse.mp hc)
    have hfdlen : (lowDigits (7 - z) (w % coordinate_precision / 10 ^ z)).reverse.length
        = 7 - z := by
      rw [List.length_reverse, lowDigits_length]
    have hdivlt : w % coordinate_precision / 10 ^ z < 10 ^ (7 - z) := by
      rw [Nat.div_lt_iff_lt_mul (by positivity), hpow]
      exact hrlt
    have hcv2 : charsVal (w / coordinate_precision)
        (lowDigits (7 - z) (w % coordinate_precision / 10 ^ z)).reverse
        = w / coordinate_precision * 10 ^ (7 - z) + w % coordinate_precision / 10 ^ z := by
      rw [charsVal_lowDigits, Nat.mod_eq_of_lt hdivlt]
    have hsc : (8 : Int) -
        (((lowDigits (7 - z) (w % coordinate_precision / 10 ^ z)).reverse.length : Nat) : Int)
        = 1 + z := by
      rw [hfdlen]
      omega
    have h2 : parseFrac (w / coordinate_precision) (fracChars (w % coordinate_precision))
        = some (w / coordinate_precision * 10 ^ (7 - z) + w % coordinate_precision / 10 ^ z,
            (1 : Int) + z, []) := by
      rw [hfc, parseFrac_digits _ _ hfdsd (by rw [hfdlen]; omega), hcv2, hsc]
    have h4 : finishResult sign
        (w / coordinate_precision * 10 ^ (7 - z) + w % coordinate_precision / 10 ^ z)
        ((1 : Int) + z) [] = some ((w : Int) * sign, []) := by
      rw [finishResult]
      rw [if_neg (by omega : ¬((1 : Int) + z < 0))]
      rw [show ((1 : Int) + z).toNat = 1 + z by omega, mulLoop_eq]
      have hx : ((w / coordinate_precision * 10 ^ (7 - z)
          + w % coordinate_precision / 10 ^ z) * 10 ^ (1 + z) + 5) / 10 = w := by
        have he1 : (w / coordinate_precision * 10 ^ (7 - z)
            + w % coordinate_precision / 10 ^ z) * 10 ^ (1 + z)
            = ((w / coordinate_precision * 10 ^ (7 - z)
              + w % coordinate_precision / 10 ^ z) * 10 ^ z) * 10 := by
          ring
        have he2 : (w / coordinate_precision * 10 ^ (7 - z)
            + w % coordinate_precision / 10 ^ z) * 10 ^ z = w := by
          have hd : w % coordinate_precision / 10 ^ z * 10 ^ z
              = w % coordinate_precision :=
            Nat.div_mul_cancel (Nat.dvd_of_mod_eq_zero hz2)
          calc (w / coordinate_precision * 10 ^ (7 - z)
              + w % coordinate_precision / 10 ^ z) * 10 ^ z
              = w / coordinate_precision * (10 ^ (7 - z) * 10 ^ z)
                + w % coordinate_precision / 10 ^ z * 10 ^ z := by ring
          _ = w / coordinate_precision * 10 ^ 7 + w % coordinate_precision := by
              rw [hpow, hd]
          _ = w := by rw [← hcp]; exact hwqr
        rw [he1, he2]
        omega
      rw [hx]
      rw [if_neg (by rcases hs with rfl | rfl <;> omega)]
    simp only [stlc_core, h1, Option.some_bind, h2, parseExp_nil, h4]

theorem append_core_head (w : Nat) (hv : w < 10 ^ 10) :
    ∃ c0 rest, append_core w = c0 :: rest ∧ isDigitChar c0 = true := by
  rw [append_core_eq w hv]
  obtain ⟨c0, ds, hids⟩ : ∃ c0 ds, intChars (w / coordinate_precision) = c0 :: ds := by
    cases hic : intChars (w / coordinate_precision) with
    | nil => exact absurd hic (intChars_ne_nil _)
    | cons a b => exact ⟨a, b, rfl⟩
  refine ⟨c0, ds ++ fracChars (w % coordinate_precision), ?_, ?_⟩
  · rw [hids, List.cons_append]
  · exact mem_intChars _ c0 (by rw [hids]; simp)

theorem digitsLSDIntGo_succ (f : Nat) (v : Int) :
    digitsLSDIntGo (f + 1) v = Char.ofNat (48 + Int.tmod v 10).toNat ::
      (if Int.tdiv v 10 = 0 then [] else digitsLSDIntGo f (Int.tdiv v 10)) := rfl

theorem digitsLSDIntGo_eq_digitsLSD : ∀ (fuel : Nat) (v : Int), 0 ≤ v →
    (digitsLSD v.toNat).length ≤ fuel → digitsLSDIntGo fuel v = digitsLSD v.toNat := by
  intro fuel
  induction fuel with
  | zero =>
    intro v _ hlen
    exact absurd hlen (by have := digitsLSD_length_pos v.toNat; omega)
  | succ f ih =>
    intro v hv hlen
    have htm : ((48 : Int) + Int.tmod v 10).toNat = v.toNat % 10 + 48 := by
      rw [Int.tmod_eq_emod hv (by norm_num)]
      omega
    rw [digitsLSDIntGo_succ, htm, digitsLSD_eq]
    by_cases h0 : v.toNat / 10 = 0
    · rw [if_pos (by rw [Int.tdiv_eq_ediv hv (by norm_num)]; omega), if_pos h0]
    · have h10 : 10 ≤ v.toNat := by omega
      have htd : Int.tdiv v 10 = ((v.toNat / 10 : Nat) : Int) := by
        rw [Int.tdiv_eq_ediv hv (by norm_num)]
        omega
      have hcast : ((v.toNat / 10 : Nat) : Int).toNat = v.toNat / 10 := by omega
      have hlen2 : (digitsLSD (((v.toNat / 10 : Nat) : Int)).toNat).length ≤ f := by
        rw [hcast]
        rw [digitsLSD_large h10] at hlen
        simp only [List.length_cons] at hlen
        omega
      rw [if_neg (by rw [Int.tdiv_eq_ediv hv (by norm_num)]; omega), if_neg h0, htd,
        ih _ (by positivity) hlen2, hcast]

theorem digitsLSDInt_nonneg (v : Int) (h0 : 0 ≤ v) (hlt : v < 10 ^ 10) :
    digitsLSDInt v = digitsLSD v.toNat := by
  rw [digitsLSDInt]
  apply digitsLSDIntGo_eq_digitsLSD 11 v h0
  have h10 : ((10 : Int) ^ 10) = 10000000000 := by norm_num
  have h10n : ((10 : Nat) ^ 10) = 10000000000 := by norm_num
  have hN : v.toNat < 10 ^ 10 := by omega
  have := digitsLSD_length_le v.toNat 10 (by norm_num) hN
  omega

theorem append_core_int_nonneg (v : Int) (h0 : 0 ≤ v) (hlt : v < 10 ^ 10) :
    append_core_int v = append_core v.toNat := by
  have hdig : digitsLSDInt v = digitsLSD v.toNat := digitsLSDInt_nonneg v h0 hlt
  have hcp : coordinate_precision = 10000000 := rfl
  have e1 : (100 * (coordinate_precision : Int) ≤ v)
      ↔ (100 * coordinate_precision ≤ v.toNat) := by
    rw [hcp]
    omega
  have e2 : (10 * (coordinate_precision : Int) ≤ v)
      ↔ (10 * coordinate_precision ≤ v.toNat) := by
    rw [hcp]
    omega
  have e3 : ((coordinate_precision : Int) ≤ v) ↔ (coordinate_precision ≤ v.toNat) := by
    rw [hcp]
    omega
  simp only [append_core_int, append_core, hdig, e1, e2, e3]

theorem wrap32_eq_self (x : Int) (h1 : -2147483648 ≤ x) (h2 : x < 2147483648) :
    wrap32 x = x := by
  rw [wrap32]
  omega

/-- Away from the most negative 32-bit value the wrapped negation is exact,
so the formatter coincides with its non-negative body applied to the
absolute value. -/
theorem append_eq_core_natAbs (v : Int) (hgt : -2147483648 < v) (hle : v ≤ 2147483647) :
    append_location_coordinate_to_string v
      = (if v < 0 then ['-'] else []) ++ append_core v.natAbs := by
  have h10 : ((10 : Int) ^ 10) = 10000000000 := by norm_num
  rw [append_location_coordinate_to_string]
  congr 1
  rcases Int.lt_or_le v 0 with hv | hv
  · rw [if_pos hv, wrap32_eq_self (-v) (by omega) (by omega),
      append_core_int_nonneg (-v) (by omega) (by omega)]
    congr 1
    omega
  · rw [if_neg (by omega), append_core_int_nonneg v hv (by omega)]
    congr 1
    omega

/-- C1.  Round-trip: formatting any scaled value that passes the valid-range
check (the wider x-axis range ±1800000000 covers the y-axis range ±900000000)
and parsing the result succeeds, consumes the whole string, and returns
exactly the original value. -/
theorem C1_format_parse_roundtrip (v : Int)
    (h1 : -1800000000 ≤ v) (h2 : v ≤ 1800000000) :
    string_to_location_coordinate (append_location_coordinate_to_string v)
      = some (v, []) := by
  have hw : v.natAbs ≤ 2147483647 := by omega
  have hv10 : v.natAbs < 10 ^ 10 := by
    calc v.natAbs ≤ 2147483647 := hw
    _ < 10 ^ 10 := by norm_num
  rcases Int.lt_or_le v 0 with hv0 | hv0
  · rw [append_eq_core_natAbs v (by omega) (by omega), if_pos hv0, List.singleton_append]
    simp only [string_to_location_coordinate, if_pos rfl]
    rw [stlc_core_append_core (-1) (Or.inr rfl) _ hw]
    have : ((v.natAbs : Int)) * (-1) = v := by omega
    rw [this, if_pos trivial]
  · rw [append_eq_core_natAbs v (by omega) (by omega), if_neg (by omega), List.nil_append]
    obtain ⟨c0, rest, hshape, hc0⟩ := append_core_head v.natAbs hv10
    rw [hshape]
    simp only [string_to_location_coordinate]
    rw [if_neg (isDigitChar_ne_minus hc0), ← hshape,
      stlc_core_append_core 1 (Or.inl rfl) _ hw]
    have : ((v.natAbs : Int)) * 1 = v := by omega
    rw [this]

/-- Witness for C1 at the concrete scaled value 15000000 (i.e. 1.5 degrees). -/
theorem C1_format_parse_roundtrip_witness :
    -1800000000 ≤ (15000000 : Int) ∧ (15000000 : Int) ≤ 1800000000 ∧
    string_to_location_coordinate (append_location_coordinate_to_string 15000000)
      = some (15000000, []) :=
  ⟨by norm_num, by norm_num,
    C1_format_parse_roundtrip 15000000 (by norm_num) (by norm_num)⟩

theorem fracChars_structure (r : Nat) (hr : r < 10 ^ 7) (h0 : r ≠ 0) :
    ∃ tail d, fracChars r = ('.' :: tail) ++ [d] ∧ d ≠ '0' ∧ isDigitChar d = true := by
  obtain ⟨hz1, hz2, hz3⟩ := countLeadingZeros_lowDigits 7 r
  rw [Nat.mod_eq_of_lt hr] at hz2 hz3
  set z := countLeadingZeros (lowDigits 7 r) with hzdef
  have hz7 : z < 7 := by
    rcases Nat.lt_or_ge z 7 with h | h
    · exact h
    · exfalso
      have h7 : z = 7 := by omega
      rw [h7] at hz2
      exact h0 (by rw [← Nat.mod_eq_of_lt hr]; exact hz2)
  have hfc : fracChars r = '.' :: (lowDigits (7 - z) (r / 10 ^ z)).reverse := by
    rw [fracChars_eq_if, if_pos (by omega), ← hzdef, lowDigits_drop z 7 _ (by omega)]
  have h7z : 7 - z = (6 - z) + 1 := by omega
  rw [h7z] at hfc
  have hcons : lowDigits ((6 - z) + 1) (r / 10 ^ z)
      = Char.ofNat (r / 10 ^ z % 10 + 48) :: lowDigits (6 - z) (r / 10 ^ z / 10) := rfl
  rw [hcons, List.reverse_cons] at hfc
  refine ⟨(lowDigits (6 - z) (r / 10 ^ z / 10)).reverse,
    Char.ofNat (r / 10 ^ z % 10 + 48), ?_, ?_, ?_⟩
  · rw [hfc, List.cons_append]
  · rw [Ne, digitChar_eq_zero_iff _ (Nat.mod_lt _ (by norm_num))]
    exact hz3 hz7
  · exact isDigitChar_digitChar _ (Nat.mod_lt _ (by norm_num))

/-- C2 counterexample: the claim fails at the most negative 32-bit value.
The negation `value = -value` at location.hpp:204 overflows there; under the
two's-complement wrap the digit loop runs on the still-negative value and
`char(v % 10) + '0'` emits codepoints below 48, so the output contains a
decimal point yet ends in the character `'('` rather than a nonzero
digit. -/
theorem C2_counterexample_int32_min :
    ('.' ∈ append_location_coordinate_to_string (-2147483648)) ∧
    (append_location_coordinate_to_string (-2147483648)).getLast? = some '(' ∧
    isDigitChar '(' = false := by
  decide

/-- C2 (amended).  Minimality of the formatter on every 32-bit scaled value
except the most negative one (where the C negation overflows): the output
contains a decimal point exactly when the value is not a multiple of 10^7,
and in that case the final character is a nonzero digit (no trailing zero
fractional digits). -/
theorem C2_formatter_minimality (v : Int)
    (h1 : -2147483647 ≤ v) (h2 : v ≤ 2147483647) :
    (('.' ∈ append_location_coordinate_to_string v) ↔ ¬((10000000 : Int) ∣ v)) ∧
    (('.' ∈ append_location_coordinate_to_string v) →
      ∃ c, (append_location_coordinate_to_string v).getLast? = some c ∧
        c ≠ '0' ∧ isDigitChar c = true) := by
  have hv10 : v.natAbs < 10 ^ 10 := by
    have : v.natAbs ≤ 2147483648 := by omega
    omega
  have hcp : coordinate_precision = 10 ^ 7 := by norm_num [coordinate_precision]
  have hrlt : v.natAbs % coordinate_precision < 10 ^ 7 := by
    rw [hcp]
    exact Nat.mod_lt _ (by norm_num)
  have hdvd : (10000000 : Int) ∣ v ↔ v.natAbs % coordinate_precision = 0 := by
    constructor
    · intro hd
      have hn : (10000000 : Nat) ∣ v.natAbs := by
        have := Int.natAbs_dvd_natAbs.mpr hd
        simpa using this
      rw [show coordinate_precision = 10000000 from rfl]
      exact Nat.mod_eq_zero_of_dvd hn
    · intro hr
      have hn : (10000000 : Nat) ∣ v.natAbs := by
        rw [show coordinate_precision = 10000000 from rfl] at hr
        exact Nat.dvd_of_mod_eq_zero hr
      have : ((10000000 : Int)).natAbs ∣ v.natAbs := by simpa using hn
      exact Int.natAbs_dvd_natAbs.mp this
  rw [append_eq_core_natAbs v (by omega) (by omega), append_core_eq _ hv10]
  have hdot_pre : '.' ∉ (if v < 0 then ['-'] else ([] : List Char)) := by
    rcases Int.lt_or_le v 0 with h | h
    · rw [if_pos h]
      decide
    · rw [if_neg (by omega)]
      decide
  have hdot_ic : '.' ∉ intChars (v.natAbs / coordinate_precision) := fun hmem =>
    absurd (mem_intChars _ '.' hmem) (by decide)
  have hfc0 : fracChars 0 = [] := by decide
  constructor
  · constructor
    · intro hmem
      rw [hdvd]
      intro hr0
      rw [hr0, hfc0] at hmem
      simp only [List.mem_append] at hmem
      rcases hmem with h | h | h
      · exact hdot_pre h
      · exact hdot_ic h
      · simp at h
    · intro hnd
      have hr0 : v.natAbs % coordinate_precision ≠ 0 := fun h => hnd (hdvd.mpr h)
      obtain ⟨tail, d, hst, _, _⟩ := fracChars_structure _ hrlt hr0
      rw [hst]
      simp only [List.mem_append]
      right
      simp
  · intro hmem
    have hr0 : v.natAbs % coordinate_precision ≠ 0 := by
      intro h0
      rw [h0, hfc0] at hmem
      simp only [List.mem_append] at hmem
      rcases hmem with h | h | h
      · exact hdot_pre h
      · exact hdot_ic h
      · simp at h
    obtain ⟨tail, d, hst, hd0, hdd⟩ := fracChars_structure _ hrlt hr0
    refine ⟨d, ?_, hd0, hdd⟩
    rw [hst]
    rw [show (if v < 0 then ['-'] else ([] : List Char))
        ++ (intChars (v.natAbs / coordinate_precision) ++ (('.' :: tail) ++ [d]))
        = ((if v < 0 then ['-'] else ([] : List Char))
          ++ intChars (v.natAbs / coordinate_precision) ++ ('.' :: tail)) ++ [d] by
      simp [List.append_assoc]]
    exact getLast?_append_singleton _ d

/-- Witness for C2 at the concrete scaled value 15000000, whose formatted
text is the string 1.5 (a decimal point, final digit 5). -/
theorem C2_formatter_minimality_witness :
    -2147483647 ≤ (15000000 : Int) ∧ (15000000 : Int) ≤ 2147483647 ∧
    ((('.' ∈ append_location_coordinate_to_string 15000000) ↔
        ¬((10000000 : Int) ∣ 15000000)) ∧
      (('.' ∈ append_location_coordinate_to_string 15000000) →
        ∃ c, (append_location_coordinate_to_string 15000000).getLast? = some c ∧
          c ≠ '0' ∧ isDigitChar c = true)) :=
  ⟨by norm_num, by norm_num,
    C2_formatter_minimality 15000000 (by norm_num) (by norm_num)⟩

/-- C3.  Parser edge cases: "5", "-0.1", "1e2", "-0.0000001" and "0" parse
to the documented scaled values, each consuming the entire input (the
returned cursor is the empty suffix), and "0" parses to plain 0. -/
theorem C3_parser_edge_cases :
    string_to_location_coordinate ['5'] = some (50000000, []) ∧
    string_to_location_coordinate ['-', '0', '.', '1'] = some (-1000000, []) ∧
    string_to_location_coordinate ['1', 'e', '2'] = some (1000000000, []) ∧
    string_to_location_coordinate ['-', '0', '.', '0', '0', '0', '0', '0', '0', '1']
      = some (-1, []) ∧
    string_to_location_coordinate ['0'] = some (0, []) := by
  decide

/-- C4.  Half-up rounding: "1.23456785" parses to the same scaled value as
"1.2345679", both succeeding with value 12345679. -/
theorem C4_half_up_rounding :
    string_to_location_coordinate ['1', '.', '2', '3', '4', '5', '6', '7', '8', '5']
      = string_to_location_coordinate ['1', '.', '2', '3', '4', '5', '6', '7', '9'] ∧
    string_to_location_coordinate ['1', '.', '2', '3', '4', '5', '6', '7', '8', '5']
      = some (12345679, []) ∧
    string_to_location_coordinate ['1', '.', '2', '3', '4', '5', '6', '7', '9']
      = some (12345679, []) := by
  decide

theorem stlc_core_eleven_digits (sign : Int) (c0 : Char) (ds rest : List Char)
    (hc0 : isDigitChar c0 = true) (hds : ∀ c ∈ ds, isDigitChar c = true)
    (hlen : 10 ≤ ds.length) :
    stlc_core sign (c0 :: (ds ++ rest)) = none := by
  have hip : parseIntPart (c0 :: (ds ++ rest)) = none := by
    simp only [parseIntPart, if_neg (isDigitChar_ne_dot hc0), if_pos hc0]
    rw [if_pos (readDigits_overflow ds _ 10 rest hds hlen)]
  rw [stlc_core, hip, Option.none_bind]

/-- C5.  Overflow rejection: any input whose integer part opens with 11
consecutive digits (with or without a leading minus sign) is rejected with
the malformed-coordinate error, whatever follows the digits — the 10-digit
cap fires before any exponent or scale adjustment is seen. -/
theorem C5_eleven_digit_rejection (ds rest : List Char)
    (hds : ∀ c ∈ ds, isDigitChar c = true) (hlen : ds.length = 11) :
    string_to_location_coordinate (ds ++ rest) = none ∧
    string_to_location_coordinate ('-' :: (ds ++ rest)) = none := by
  obtain ⟨c0, ds2, rfl⟩ : ∃ c0 ds2, ds = c0 :: ds2 := by
    cases ds with
    | nil => simp at hlen
    | cons a b => exact ⟨a, b, rfl⟩
  have hc0 : isDigitChar c0 = true := hds c0 (by simp)
  have hds2 : ∀ c ∈ ds2, isDigitChar c = true := fun c hc => hds c (by simp [hc])
  have hlen2 : 10 ≤ ds2.length := by
    simp only [List.length_cons] at hlen
    omega
  constructor
  · rw [List.cons_append]
    simp only [string_to_location_coordinate]
    rw [if_neg (isDigitChar_ne_minus hc0)]
    exact stlc_core_eleven_digits 1 c0 ds2 rest hc0 hds2 hlen2
  · simp only [string_to_location_coordinate, if_pos rfl]
    rw [List.cons_append]
    exact stlc_core_eleven_digits (-1) c0 ds2 rest hc0 hds2 hlen2

/-- Witness for C5 at the concrete input "99999999999" (eleven nines). -/
theorem C5_eleven_digit_rejection_witness :
    (∀ c ∈ List.replicate 11 '9', isDigitChar c = true) ∧
    (List.replicate 11 '9').length = 11 ∧
    (string_to_location_coordinate (List.replicate 11 '9' ++ []) = none ∧
      string_to_location_coordinate ('-' :: (List.replicate 11 '9' ++ [])) = none) :=
  ⟨by decide, by decide,
    C5_eleven_digit_rejection (List.replicate 11 '9') [] (by decide) (by decide)⟩

/-- C6.  Exponent form: "5e-2" succeeds and parses to the same scaled value
as "0.05" (namely 500000). -/
theorem C6_exponent_matches_plain :
    string_to_location_coordinate ['5', 'e', '-', '2']
      = string_to_location_coordinate ['0', '.', '0', '5'] ∧
    string_to_location_coordinate ['5', 'e', '-', '2'] = some (500000, []) := by
  decide

/-- C7.  Validity boundary and longitude accessors: with the y axis in
latitude range, x = 1800000000 is valid and x = 1800000001 is not; `lon`
fails (returns `none`, modelling the `invalid_location` throw) exactly when
`valid` is false and otherwise returns x / 10^7; `lon_without_check` divides
unconditionally. -/
theorem C7_validity_boundary_lon (x y : Int)
    (hy1 : -900000000 ≤ y) (hy2 : y ≤ 900000000) :
    Location.valid ⟨1800000000, y⟩ = true ∧
    Location.valid ⟨1800000001, y⟩ = false ∧
    (Location.lon ⟨x, y⟩ = none ↔ Location.valid ⟨x, y⟩ = false) ∧
    (Location.valid ⟨x, y⟩ = true →
      Location.lon ⟨x, y⟩ = some ((x : Rat) / 10000000)) ∧
    Location.lon_without_check ⟨x, y⟩ = (x : Rat) / 10000000 := by
  have hfix : ∀ c : Int, fix_to_double c = (c : Rat) / 10000000 := by
    intro c
    rw [fix_to_double]
    norm_num [coordinate_precision]
  refine ⟨?_, ?_, ?_, ?_, ?_⟩
  · simp only [Location.valid, coordinate_precision, Bool.and_eq_true, decide_eq_true_eq]
    refine ⟨⟨⟨by norm_num, by norm_num⟩, by omega⟩, by omega⟩
  · simp only [Location.valid, coordinate_precision]
    rw [show (decide ((⟨1800000001, y⟩ : Location).m_x ≤ 180 * ((10000000 : Nat) : Int)))
        = false by rw [decide_eq_false_iff_not]; norm_num]
    simp
  · cases hval : Location.valid ⟨x, y⟩ with
    | true => simp [Location.lon, hval]
    | false => simp [Location.lon, hval]
  · intro hval
    simp [Location.lon, hval, hfix]
  · rw [Location.lon_without_check, hfix]

/-- Witness for C7 at x = 1800000001 (just outside range), y = 5. -/
theorem C7_validity_boundary_lon_witness :
    -900000000 ≤ (5 : Int) ∧ (5 : Int) ≤ 900000000 ∧
    (Location.valid ⟨1800000000, 5⟩ = true ∧
      Location.valid ⟨1800000001, 5⟩ = false ∧
      (Location.lon ⟨(1800000001 : Int), 5⟩ = none ↔
        Location.valid ⟨(1800000001 : Int), 5⟩ = false) ∧
      (Location.valid ⟨(1800000001 : Int), 5⟩ = true →
        Location.lon ⟨(1800000001 : Int), 5⟩ = some (((1800000001 : Int) : Rat) / 10000000)) ∧
      Location.lon_without_check ⟨(1800000001 : Int), 5⟩
        = ((1800000001 : Int) : Rat) / 10000000) :=
  ⟨by norm_num, by norm_num,
    C7_validity_boundary_lon 1800000001 5 (by norm_num) (by norm_num)⟩

/-- C8.  The ordering on Locations is lexicographic: a < b exactly when
a.x < b.x, or a.x = b.x and a.y < b.y; with the three concrete instances of
the claim. -/
theorem C8_ordering_lexicographic :
    (∀ a b : Location, location_lt a b = true ↔
      (a.x < b.x ∨ (a.x = b.x ∧ a.y < b.y))) ∧
    location_lt ⟨1, 5⟩ ⟨1, 6⟩ = true ∧
    location_lt ⟨1, 6⟩ ⟨2, 0⟩ = true ∧
    location_lt ⟨1, 6⟩ ⟨1, 5⟩ = false := by
  refine ⟨?_, by decide, by decide, by decide⟩
  intro a b
  simp only [location_lt, Bool.or_eq_true, Bool.and_eq_true, decide_eq_true_eq]
  constructor
  · rintro (⟨he, hy⟩ | hx)
    · exact Or.inr ⟨he, hy⟩
    · exact Or.inl hx
  · rintro (hx | ⟨he, hy⟩)
    · exact Or.inr hx
    · exact Or.inl ⟨he, hy⟩

/-- C9 counterexample: the claim that a failed `set_lon` leaves the axes
unchanged is false.  On the input "5x" the literal 5 parses successfully and
is stored into the x axis before the trailing-character check throws: the
call fails (flag `false`) yet x changed from 1 to 50000000. -/
theorem C9_counterexample_trailing_garbage :
    Location.set_lon ⟨1, 2⟩ ['5', 'x'] = (⟨50000000, 2⟩, false) ∧
    (⟨50000000, 2⟩ : Location) ≠ ⟨1, 2⟩ := by
  decide

/-- C9 (amended).  On a failed `set_lon`/`set_lat` call the other axis is
always unchanged, and the target axis is unchanged unless the literal itself
parsed and only the trailing-character check failed, in which case the
target axis holds the parsed value. -/
theorem C9_amended_failure_effects (l : Location) (s : List Char)
    (hx : (Location.set_lon l s).2 = false) (_hy : (Location.set_lat l s).2 = false) :
    (Location.set_lon l s).1.m_y = l.m_y ∧
    (Location.set_lat l s).1.m_x = l.m_x ∧
    ((Location.set_lon l s).1.m_x = l.m_x ∨
      ∃ v rest, string_to_location_coordinate s = some (v, rest) ∧ rest ≠ [] ∧
        (Location.set_lon l s).1.m_x = v) ∧
    ((Location.set_lat l s).1.m_y = l.m_y ∨
      ∃ v rest, string_to_location_coordinate s = some (v, rest) ∧ rest ≠ [] ∧
        (Location.set_lat l s).1.m_y = v) := by
  cases hp : string_to_location_coordinate s with
  | none =>
    have hlon : Location.set_lon l s = (l, false) := by
      simp only [Location.set_lon, hp]
    have hlat : Location.set_lat l s = (l, false) := by
      simp only [Location.set_lat, hp]
    rw [hlon, hlat]
    exact ⟨rfl, rfl, Or.inl rfl, Or.inl rfl⟩
  | some vr =>
    obtain ⟨v, rest⟩ := vr
    have hlon : Location.set_lon l s = ({ l with m_x := v }, rest.isEmpty) := by
      simp only [Location.set_lon, hp]
    have hlat : Location.set_lat l s = ({ l with m_y := v }, rest.isEmpty) := by
      simp only [Location.set_lat, hp]
    rw [hlon] at hx
    have hrne : rest ≠ [] := by
      intro hr
      subst hr
      simp at hx
    rw [hlon, hlat]
    exact ⟨rfl, rfl, Or.inr ⟨v, rest, rfl, hrne, rfl⟩, Or.inr ⟨v, rest, rfl, hrne, rfl⟩⟩

/-- Witness for the amended C9 on the failing input "5x". -/
theorem C9_amended_failure_effects_witness :
    (Location.set_lon ⟨1, 2⟩ ['5', 'x']).2 = false ∧
    (Location.set_lat ⟨1, 2⟩ ['5', 'x']).2 = false ∧
    ((Location.set_lon ⟨1, 2⟩ ['5', 'x']).1.m_y = (⟨1, 2⟩ : Location).m_y ∧
      (Location.set_lat ⟨1, 2⟩ ['5', 'x']).1.m_x = (⟨1, 2⟩ : Location).m_x ∧
      ((Location.set_lon ⟨1, 2⟩ ['5', 'x']).1.m_x = (⟨1, 2⟩ : Location).m_x ∨
        ∃ v rest, string_to_location_coordinate ['5', 'x'] = some (v, rest) ∧ rest ≠ [] ∧
          (Location.set_lon ⟨1, 2⟩ ['5', 'x']).1.m_x = v) ∧
      ((Location.set_lat ⟨1, 2⟩ ['5', 'x']).1.m_y = (⟨1, 2⟩ : Location).m_y ∨
        ∃ v rest, string_to_location_coordinate ['5', 'x'] = some (v, rest) ∧ rest ≠ [] ∧
          (Location.set_lat ⟨1, 2⟩ ['5', 'x']).1.m_y = v)) :=
  ⟨by decide, by decide,
    C9_amended_failure_effects ⟨1, 2⟩ ['5', 'x'] (by decide) (by decide)⟩

theorem isDigitChar_ne_plus {c : Char} (h : isDigitChar c = true) : c ≠ '+' := by
  intro hc
  rw [hc] at h
  exact absurd h (by decide)

theorem takeWhile_digits {l : List Char} (h : ∀ c ∈ l, isDigitChar c = true) :
    l.takeWhile isDigitChar = l := by
  induction l with
  | nil => rfl
  | cons c cs ih =>
    rw [List.takeWhile_cons, if_pos (h c (by simp))]
    rw [ih (fun x hx => h x (by simp [hx]))]

theorem dropWhile_digits {l : List Char} (h : ∀ c ∈ l, isDigitChar c = true) :
    l.dropWhile isDigitChar = [] := by
  induction l with
  | nil => rfl
  | cons c cs ih =>
    rw [List.dropWhile_cons, if_pos (h c (by simp))]
    exact ih (fun x hx => h x (by simp [hx]))

/-- The `strtoll` model applied to the plain decimal spelling of a positive
number within the `long long` range parses it back exactly, consuming the
whole string and leaving `errno` clear. -/
theorem strtollModel_intChars (M : Nat) (hM0 : 0 < M)
    (hM : (M : Int) ≤ 9223372036854775807) :
    strtollModel (intChars M) = ((M : Int), false, []) := by
  obtain ⟨c0, ds, hids⟩ : ∃ c0 ds, intChars M = c0 :: ds := by
    cases hic : intChars M with
    | nil => exact absurd hic (intChars_ne_nil _)
    | cons a b => exact ⟨a, b, rfl⟩
  have hc0 : isDigitChar c0 = true := mem_intChars _ c0 (by rw [hids]; simp)
  have hdrop : (intChars M).dropWhile isSpaceChar = intChars M := by
    rw [hids, List.dropWhile_cons, isSpaceChar_of_digit hc0]
    simp
  have hheadne : (intChars M).head? ≠ some '-' ∧ (intChars M).head? ≠ some '+' := by
    rw [hids]
    constructor
    · simp only [List.head?_cons, Ne, Option.some.injEq]
      exact isDigitChar_ne_minus hc0
    · simp only [List.head?_cons, Ne, Option.some.injEq]
      exact isDigitChar_ne_plus hc0
  have htw : (intChars M).takeWhile isDigitChar = intChars M :=
    takeWhile_digits (mem_intChars M)
  have hdw : (intChars M).dropWhile isDigitChar = [] :=
    dropWhile_digits (mem_intChars M)
  have hne2 : ¬((intChars M).head? = some '-' ∨ (intChars M).head? = some '+') := by
    intro hor
    rcases hor with h | h
    · exact hheadne.1 h
    · exact hheadne.2 h
  simp only [strtollModel, hdrop]
  rw [if_neg hheadne.1, if_neg hne2, htw, hdw, if_neg (intChars_ne_nil M),
    charsVal_intChars, one_mul]
  rw [if_neg (by omega), if_neg (by omega)]

/-- C10.  `str_to_int` returns the parsed value only when the modelled
`strtoll` left `errno` clear, produced a non-negative value strictly below
the type maximum `M`, and consumed the entire string; in every other case it
returns 0 — in particular on the decimal spelling of `M` itself, because the
comparison is `value >= M`, not `>`. -/
theorem C10_str_to_int_conditions (M : Int) (s : List Char)
    (hM0 : 0 < M) (hM : M ≤ 9223372036854775807) :
    (str_to_int M s ≠ 0 →
      (strtollModel s).2.1 = false ∧ 0 ≤ (strtollModel s).1 ∧
      (strtollModel s).1 < M ∧ (strtollModel s).2.2 = [] ∧
      str_to_int M s = (strtollModel s).1) ∧
    ((strtollModel s).2.1 = true ∨ (strtollModel s).1 < 0 ∨ M ≤ (strtollModel s).1 ∨
      (strtollModel s).2.2 ≠ [] → str_to_int M s = 0) ∧
    str_to_int M (intChars M.toNat) = 0 := by
  refine ⟨?_, ?_, ?_⟩
  · intro hne
    by_cases hcond : (strtollModel s).2.1 = true ∨ (strtollModel s).1 < 0 ∨
        M ≤ (strtollModel s).1 ∨ (strtollModel s).2.2 ≠ []
    · exfalso
      apply hne
      simp only [str_to_int]
      rw [if_pos hcond]
    · push_neg at hcond
      obtain ⟨h1, h2, h3, h4⟩ := hcond
      refine ⟨by simpa using h1, by omega, h3, h4, ?_⟩
      simp only [str_to_int]
      rw [if_neg (by
        intro hor
        rcases hor with h | h | h | h
        · rw [h] at h1; exact h1 rfl
        · omega
        · omega
        · exact h h4)]
  · intro h
    simp only [str_to_int]
    rw [if_pos h]
  · have hMt : ((M.toNat : Nat) : Int) = M := by omega
    have hstr := strtollModel_intChars M.toNat (by omega) (by omega)
    simp only [str_to_int, hstr]
    rw [if_pos (Or.inr (Or.inr (Or.inl (by omega))))]

/-- Witness for C10 at M = 7 with input "99" (trailing-range failure path)
and the decimal spelling of 7 returning 0. -/
theorem C10_str_to_int_conditions_witness :
    0 < (7 : Int) ∧ (7 : Int) ≤ 9223372036854775807 ∧
    ((str_to_int 7 ['9', '9'] ≠ 0 →
        (strtollModel ['9', '9']).2.1 = false ∧ 0 ≤ (strtollModel ['9', '9']).1 ∧
        (strtollModel ['9', '9']).1 < 7 ∧ (strtollModel ['9', '9']).2.2 = [] ∧
        str_to_int 7 ['9', '9'] = (strtollModel ['9', '9']).1) ∧
      ((strtollModel ['9', '9']).2.1 = true ∨ (strtollModel ['9', '9']).1 < 0 ∨
        (7 : Int) ≤ (strtollModel ['9', '9']).1 ∨ (strtollModel ['9', '9']).2.2 ≠ [] →
        str_to_int 7 ['9', '9'] = 0) ∧
      str_to_int 7 (intChars (7 : Int).toNat) = 0) :=
  ⟨by norm_num, by norm_num,
    C10_str_to_int_conditions 7 ['9', '9'] (by norm_num) (by norm_num)⟩
